import Mathlib

/-!
Verification of the palantir tree engine (generic tree container, filesystem
sort policy, tree renderers, YAML document tree builder).

The definitions below are shallow embeddings of the Go code:

* `GNode`, `findChild`, `insertNode`, `treeInsert`, `findNode`, `treeSize`
  embed `Node[T]`, `(*Node[T]).FindChild`, `(*genericTree[T]).Insert`,
  `(*genericTree[T]).Find` and `(*genericTree[T]).Size` from `tree.go`.
  Go's `var zero T` (the zero value used for intermediate nodes) is passed
  explicitly as the `zero` argument.
* `fsLess` embeds the comparator returned by
  `FileSystemTreeBuilder.getSortFunction` (`filesystem_tree.go`).
* `SortRel` embeds `(*genericTree[T]).sortNode` (`tree.go`), which calls
  Go's `sort.Slice` on each children list and then recurses.  `sort.Slice`
  guarantees that the slice becomes a permutation of its input that is
  sorted with respect to the comparator (adjacent elements `a` before `b`
  satisfy `!less(b, a)`), and it is documented as NOT stable.  `SortRel`
  therefore relates a tree to every result permitted by that contract.
* `printTreeGo` embeds `printTree` (the legacy renderer), `renderNodeGo`
  embeds `TreeRendererImpl.renderNode` composed with `FileSystemStyler`
  (`GetTreeChar`/`GetPrefix`); the name styling function is passed as a
  parameter (`styleFileNode`/`Style` with colors disabled is `fun f => f.name`).
* `YVal`, `YAMLNode`, `buildYAMLTree`, `parseYAMLToTree` embed the YAML
  document tree builder.  A Go `map[string]interface{}` is represented as
  the list of its entries in the order Go's `range` happens to deliver
  them; that order is unspecified and randomized between runs.
-/

/-- Embedding of `Node[T]` from `tree.go`: a named node with a payload and an
ordered children list.  The Go `Parent` back-pointer is represented
structurally (a node's parent is the node whose children list contains it). -/
inductive GNode (T : Type) : Type where
  | mk (name : String) (data : T) (children : List (GNode T))

namespace GNode

def name {T : Type} : GNode T → String
  | .mk n _ _ => n

def data {T : Type} : GNode T → T
  | .mk _ d _ => d

def children {T : Type} : GNode T → List (GNode T)
  | .mk _ _ cs => cs

end GNode

/-- Embedding of `(*Node[T]).FindChild` from `tree.go`: return the first
child whose `Name` equals `name`, scanning in list order. -/
def findChild {T : Type} : List (GNode T) → String → Option (GNode T)
  | [], _ => none
  | c :: cs, s => if c.name = s then some c else findChild cs s

/-- Replace the first node named `s` in the list with `nn`.  This captures the
in-place pointer update performed by `Insert` when it descends into an
existing child found by `FindChild`. -/
def replaceFirst {T : Type} : List (GNode T) → String → GNode T → List (GNode T)
  | [], _, _ => []
  | c :: cs, s, nn => if c.name = s then nn :: cs else c :: replaceFirst cs s nn

/-- Embedding of the walking loop of `(*genericTree[T]).Insert` from `tree.go`:
for each non-final segment, find an existing child with that name or create an
intermediate node with the zero value; the final segment is always appended as
a fresh node carrying `data`. -/
def insertNode {T : Type} (zero : T) : List String → T → GNode T → GNode T
  | [], _, n => n
  | s :: rest, d, .mk nm dat cs =>
    match rest with
    | [] => .mk nm dat (cs ++ [.mk s d []])
    | _ :: _ =>
      match findChild cs s with
      | some c => .mk nm dat (replaceFirst cs s (insertNode zero rest d c))
      | none => .mk nm dat (cs ++ [insertNode zero rest d (.mk s zero [])])

/-- Embedding of `(*genericTree[T]).Insert` from `tree.go` including its
empty-path guard: `if len(path) == 0 { return fmt.Errorf("path cannot be empty") }`. -/
def treeInsert {T : Type} (zero : T) (root : GNode T) (path : List String) (d : T) :
    Except String (GNode T) :=
  match path with
  | [] => .error "path cannot be empty"
  | _ :: _ => .ok (insertNode zero path d root)

/-- Embedding of `(*genericTree[T]).Find` from `tree.go`: walk name-matched
children from the root; `some n` plays the role of `(n, true)` and `none` of
`(nil, false)`. -/
def findNode {T : Type} : GNode T → List String → Option (GNode T)
  | n, [] => some n
  | n, s :: rest =>
    match findChild n.children s with
    | none => none
    | some c => findNode c rest

/-- Embedding of `FileNode` from `filesystem_tree.go`: metadata payload of a
filesystem tree node.  Go's `int64` fields are modelled as `Int`. -/
structure FileNode where
  name : String
  path : String
  isDir : Bool
  size : Int
  modTime : Int

/-- Embedding of the comparator body returned by
`FileSystemTreeBuilder.getSortFunction` (`filesystem_tree.go`): directories
first (`if a.Data.IsDir != b.Data.IsDir { return a.Data.IsDir }`), then
`a.Data.Name < b.Data.Name`.  Go compares the names byte-wise; Lean's `<` on
`String` compares code points, which agrees with byte order on UTF-8. -/
def fsLessData (a b : FileNode) : Bool :=
  if a.isDir != b.isDir then a.isDir else decide (a.name < b.name)

/-- The filesystem comparator applied to tree nodes, as passed to `Sort`. -/
def fsNodeLess (a b : GNode FileNode) : Bool :=
  fsLessData a.data b.data

/-- Embedding of `(*genericTree[T]).sortNode` (`tree.go`).  `sortNode` calls
Go's `sort.Slice(node.Children, ...)` and then recurses into each child.
`sort.Slice` reorders the slice into a permutation of its input that is
sorted with respect to the comparator (adjacent elements satisfy
`!less(next, previous)`); it is documented as not guaranteeing stability, so
any such permutation is a possible outcome.  `SortRel less t t'` holds
exactly when `t'` is a possible result of `sortNode` applied to `t`:
the children list becomes some sorted permutation `cs₁` of the original
children, and each element of `cs₁` is itself recursively sorted. -/
inductive SortRel {T : Type} (less : GNode T → GNode T → Bool) :
    GNode T → GNode T → Prop where
  | mk {n : String} {d : T} {cs cs₁ cs' : List (GNode T)}
      (hperm : cs.Perm cs₁)
      (hsorted : List.Chain' (fun a b => less b a = false) cs₁)
      (hlen : cs₁.length = cs'.length)
      (hrec : ∀ (i : Nat) (h1 : i < cs₁.length) (h2 : i < cs'.length),
        SortRel less (cs₁.get ⟨i, h1⟩) (cs'.get ⟨i, h2⟩)) :
      SortRel less (.mk n d cs) (.mk n d cs')

mutual

/-- Embedding of `(*genericTree[T]).Size` (`tree.go`): total node count via a
full traversal (the visitor always returns true, so every node is counted). -/
def treeSize {T : Type} : GNode T → Nat
  | .mk _ _ cs => 1 + treeSizeList cs

def treeSizeList {T : Type} : List (GNode T) → Nat
  | [] => 0
  | c :: cs => treeSize c + treeSizeList cs

end

mutual

/-- The `(Name, Data)` pairs of all nodes of a tree in preorder; used to state
that sorting neither adds, removes nor rewrites any node. -/
def nodeKeys {T : Type} : GNode T → List (String × T)
  | .mk n d cs => (n, d) :: nodeKeysList cs

def nodeKeysList {T : Type} : List (GNode T) → List (String × T)
  | [] => []
  | c :: cs => nodeKeys c ++ nodeKeysList cs

end

/-- The claimed per-pair sort invariant on sibling payloads: a non-directory
is never followed by a directory, and within a same-kind pair the names are
non-decreasing. -/
def fsPairOK (a b : FileNode) : Prop :=
  (a.isDir = false → b.isDir = false) ∧ (a.isDir = b.isDir → a.name ≤ b.name)

/-- The sortedness invariant of C3, at every depth of the tree. -/
inductive SortedInv : GNode FileNode → Prop where
  | mk {n : String} {d : FileNode} {cs : List (GNode FileNode)}
      (hpw : List.Pairwise fsPairOK (cs.map GNode.data))
      (hrec : ∀ c ∈ cs, SortedInv c) : SortedInv (.mk n d cs)

def fnRoot : FileNode := ⟨"r", "/r", true, 0, 0⟩

def fnDirA : FileNode := ⟨"dA", "/r/dA", true, 0, 0⟩

def fnFileB : FileNode := ⟨"b.txt", "/r/b.txt", false, 4, 0⟩

/-- Two regular files with identical `Name` and `IsDir` but different `Path`:
a tie for the filesystem comparator. -/
def fnDup1 : FileNode := ⟨"dup.txt", "/r/one/dup.txt", false, 1, 0⟩

def fnDup2 : FileNode := ⟨"dup.txt", "/r/two/dup.txt", false, 2, 0⟩

def exDirA : GNode FileNode := .mk "dA" fnDirA []

def exFileB : GNode FileNode := .mk "b.txt" fnFileB []

def exUnsorted : GNode FileNode := .mk "r" fnRoot [exFileB, exDirA]

def exSorted : GNode FileNode := .mk "r" fnRoot [exDirA, exFileB]

def exDup1 : GNode FileNode := .mk "dup.txt" fnDup1 []

def exDup2 : GNode FileNode := .mk "dup.txt" fnDup2 []

/-- A sibling list with two tied siblings in insertion order. -/
def tieBefore : GNode FileNode := .mk "r" fnRoot [exDup1, exDup2]

/-- The same siblings in reversed order: also a sorted permutation, hence a
possible `sort.Slice` outcome. -/
def tieAfter : GNode FileNode := .mk "r" fnRoot [exDup2, exDup1]

mutual

/-- Embedding of the legacy `printTree` (tree display code): a non-root node
emits one line `prefix ++ treeChar ++ styledName` with `treeChar` chosen by
its own is-last flag; every child is rendered with the accumulated child
prefix computed from the parent's own prefix, is-last and is-root flags
(`""` at the root, `prefix + "    "` under a last node, `prefix + "│   "`
under a non-last node).  The styling function (`styleFileNode`, which reads
`node.Data`) is passed as the `style` parameter; with colors disabled it is
`fun f => f.name`. -/
def printTreeGo (style : FileNode → String) :
    GNode FileNode → String → Bool → Bool → List String
  | .mk _ d cs, pre, isLast, isRoot =>
    (if isRoot then []
     else [pre ++ (if isLast then "└── " else "├── ") ++ style d]) ++
    printTreeKids style
      (if isRoot then "" else if isLast then pre ++ "    " else pre ++ "│   ") cs

/-- The `for i, child := range node.Children` loop of `printTree`: the last
list element gets `isChildLast = true`. -/
def printTreeKids (style : FileNode → String) (childPre : String) :
    List (GNode FileNode) → List String
  | [] => []
  | [c] => printTreeGo style c childPre true false
  | c :: c2 :: cs =>
    printTreeGo style c childPre false false ++ printTreeKids style childPre (c2 :: cs)

end

/-- Embedding of `FileSystemStyler.GetTreeChar`. -/
def getTreeCharFS (isLast : Bool) : String :=
  if isLast then "└── " else "├── "

/-- Embedding of `FileSystemStyler.GetPrefix`: note that it receives only a
node (unused), an is-last flag and an is-root flag — it has no access to the
accumulated prefix. -/
def getPrefixFS (_node : GNode FileNode) (isLast isRoot : Bool) : String :=
  if isRoot then "" else if isLast then "    " else "│   "

mutual

/-- Embedding of `TreeRendererImpl.renderNode` composed with
`FileSystemStyler`: a non-root node emits
`prefix ++ GetTreeChar(node, isLast) ++ Style(node)`; each child is rendered
with prefix `GetPrefix(node, isChildLast, isRoot)` — the child's own is-last
flag and no accumulation of the parent's prefix, exactly as in the source. -/
def renderNodeGo (style : FileNode → String) :
    GNode FileNode → String → Bool → Bool → List String
  | .mk n d cs, pre, isLast, isRoot =>
    (if isRoot then [] else [pre ++ getTreeCharFS isLast ++ style d]) ++
    renderKidsGo style (.mk n d cs) isRoot cs

/-- The `for i, child := range node.Children` loop of `renderNode`, carrying
the parent node passed to `GetPrefix`. -/
def renderKidsGo (style : FileNode → String) (parent : GNode FileNode)
    (isRoot : Bool) : List (GNode FileNode) → List String
  | [] => []
  | [c] => renderNodeGo style c (getPrefixFS parent true isRoot) true false
  | c :: c2 :: cs =>
    renderNodeGo style c (getPrefixFS parent false isRoot) false false ++
      renderKidsGo style parent isRoot (c2 :: cs)

end

/-- Embedding of `TreeRendererImpl.Render`: if the root has exactly one child
and it is not a directory, emit nothing; otherwise render from the root with
empty prefix, `isLast = true`, `isRoot = true`. -/
def renderTreeImpl (style : FileNode → String) (root : GNode FileNode) : List String :=
  match root.children with
  | [c] => if c.data.isDir then renderNodeGo style root "" true true else []
  | _ => renderNodeGo style root "" true true

/-- Embedding of the post-build part of `ShowHierarchy` (`tree.go`): if the
root has exactly one child and that child's `Data.IsDir` is false, return no
output and `hasHierarchy = false`; otherwise render the tree via the tree
renderer and return `hasHierarchy = true`.  The first component is the list
of emitted lines, the second the returned boolean. -/
def showHierarchyModel (style : FileNode → String) (root : GNode FileNode) :
    List String × Bool :=
  match root.children with
  | [c] =>
    if c.data.isDir then (renderTreeImpl style root, true) else ([], false)
  | _ => (renderTreeImpl style root, true)

def rdDirA : FileNode := ⟨"dirA", "/r/dirA", true, 0, 0⟩

def rdFile1 : FileNode := ⟨"file1.txt", "/r/dirA/file1.txt", false, 1, 0⟩

def rdFile2 : FileNode := ⟨"file2.txt", "/r/dirA/file2.txt", false, 2, 0⟩

def rdFile3 : FileNode := ⟨"file3.txt", "/r/file3.txt", false, 3, 0⟩

/-- The spec's 3-level example, already sorted: `root → {dirA → {file1.txt,
file2.txt}, file3.txt}` with `dirA` a non-last first child. -/
def exRenderTree : GNode FileNode :=
  .mk "r" fnRoot
    [.mk "dirA" rdDirA [.mk "file1.txt" rdFile1 [], .mk "file2.txt" rdFile2 []],
     .mk "file3.txt" rdFile3 []]

/-- A root whose only child is a single regular file (the suppression case). -/
def exSingleFile : GNode FileNode := .mk "r" fnRoot [exFileB]

/-- A deserialized YAML value as produced by `yaml.Unmarshal` into
`interface{}`: a string, an integer (Go `int`/`int64`), a boolean, nil, a
mapping, or a sequence.  A Go `map[string]interface{}` is represented by the
list of its entries in the order Go's `range` happens to deliver them — that
order is unspecified and randomized between runs, so a builder run
corresponds to one choice of entry order.  (Go `float64` values are not
needed by any claim and are not modelled.) -/
inductive YVal : Type where
  | str (s : String)
  | int (n : Int)
  | bool (b : Bool)
  | null
  | map (entries : List (String × YVal))
  | arr (items : List YVal)

/-- Embedding of `YAMLNode` (the display payload of a YAML tree node). -/
structure YAMLNode where
  name : String
  value : YVal
  isDir : Bool
  nodeType : String

/-- The array-item display label of `buildYAMLTree`: a string item is used
as-is, numbers via `%v`, booleans via `%t`, anything else (nested containers,
nil) gets the positional `[i]` placeholder. -/
def itemLabel (i : Nat) : YVal → String
  | .str s => s
  | .int n => toString n
  | .bool b => if b then "true" else "false"
  | _ => "[" ++ toString i ++ "]"

mutual

/-- Embedding of `buildYAMLTree`: a mapping value appends one child per entry
(tagged `IsDir: true, NodeType: "object"`) and recurses into each value; a
sequence value appends one child per item (tagged `IsDir: false, NodeType:
"array"`), recursing only into container items; a scalar value replaces the
node's own payload with `IsDir: false, NodeType: "scalar"`.  Note that a node
whose value is a sequence keeps the `"object"` tag given to it by its parent:
only its item children are tagged `"array"`. -/
def buildYAMLTree : GNode YAMLNode → YVal → GNode YAMLNode
  | .mk n nd cs, .map entries => .mk n nd (cs ++ buildMapChildren entries)
  | .mk n nd cs, .arr items => .mk n nd (cs ++ buildArrChildren 0 items)
  | .mk n _ cs, v => .mk n ⟨n, v, false, "scalar"⟩ cs

/-- The `for key, value := range v` loop of the mapping case, in the order
the entries are delivered by Go's randomized map iteration. -/
def buildMapChildren : List (String × YVal) → List (GNode YAMLNode)
  | [] => []
  | (k, v) :: rest =>
    buildYAMLTree (.mk k ⟨k, v, true, "object"⟩ []) v :: buildMapChildren rest

/-- The `for i, item := range v` loop of the sequence case: container items
are recursed into, scalar items are appended as-is. -/
def buildArrChildren : Nat → List YVal → List (GNode YAMLNode)
  | _, [] => []
  | i, item :: rest =>
    (match item with
     | .map es => buildYAMLTree
        (.mk (itemLabel i (.map es)) ⟨itemLabel i (.map es), .map es, false, "array"⟩ []) (.map es)
     | .arr its => buildYAMLTree
        (.mk (itemLabel i (.arr its)) ⟨itemLabel i (.arr its), .arr its, false, "array"⟩ []) (.arr its)
     | v => .mk (itemLabel i v) ⟨itemLabel i v, v, false, "array"⟩ []) ::
    buildArrChildren (i + 1) rest

end

/-- Embedding of `ParseYAMLToTree` after a successful `yaml.Unmarshal`: a
synthetic root named "root" tagged `IsDir: true, NodeType: "object"`, then
`buildYAMLTree(root, data)`. -/
def parseYAMLToTree (data : YVal) : GNode YAMLNode :=
  buildYAMLTree (.mk "root" ⟨"root", data, true, "object"⟩ []) data

/-- The document of C7. -/
def docC7 : YVal := .map [("a", .int 1), ("b", .arr [.str "x", .str "y"])]

/-- The two-key mapping of C8, in the two possible iteration orders. -/
def docC8a : List (String × YVal) := [("a", .int 1), ("b", .int 2)]

def docC8b : List (String × YVal) := [("b", .int 2), ("a", .int 1)]

@[simp] theorem GNode.name_mk {T : Type} (n : String) (d : T) (cs : List (GNode T)) :
    (GNode.mk n d cs).name = n := rfl

@[simp] theorem GNode.data_mk {T : Type} (n : String) (d : T) (cs : List (GNode T)) :
    (GNode.mk n d cs).data = d := rfl

@[simp] theorem GNode.children_mk {T : Type} (n : String) (d : T) (cs : List (GNode T)) :
    (GNode.mk n d cs).children = cs := rfl

/-- C9: `Find` on the empty path returns the root node with `found = true`
(it never fails), even though `Insert` rejects the empty path with the
"path cannot be empty" error. -/
theorem find_empty_path_returns_root {T : Type} (zero d : T) (root : GNode T) :
    findNode root [] = some root ∧
    treeInsert zero root [] d = .error "path cannot be empty" := by
  exact ⟨rfl, rfl⟩

theorem findChild_name {T : Type} {cs : List (GNode T)} {s : String} {c : GNode T}
    (h : findChild cs s = some c) : c.name = s := by
  induction cs with
  | nil => simp [findChild] at h
  | cons c0 cs ih =>
    by_cases h0 : c0.name = s
    · simp [findChild, h0] at h
      simpa [← h] using h0
    · simp [findChild, h0] at h
      exact ih h

theorem findChild_eq_none {T : Type} {cs : List (GNode T)} {s : String} :
    findChild cs s = none ↔ ∀ c ∈ cs, c.name ≠ s := by
  induction cs with
  | nil => simp [findChild]
  | cons c0 cs ih =>
    by_cases h0 : c0.name = s
    · simp [findChild, h0]
    · simp [findChild, h0, ih]

theorem findChild_append_of_none {T : Type} {cs : List (GNode T)} {s : String}
    (h : findChild cs s = none) (ds : List (GNode T)) :
    findChild (cs ++ ds) s = findChild ds s := by
  induction cs with
  | nil => simp
  | cons c0 cs ih =>
    by_cases h0 : c0.name = s
    · simp [findChild, h0] at h
    · simp [findChild, h0] at h ⊢
      exact ih h

theorem replaceFirst_append_of_none {T : Type} {cs : List (GNode T)} {s : String}
    (h : findChild cs s = none) (ds : List (GNode T)) (nn : GNode T) :
    replaceFirst (cs ++ ds) s nn = cs ++ replaceFirst ds s nn := by
  induction cs with
  | nil => simp
  | cons c0 cs ih =>
    by_cases h0 : c0.name = s
    · simp [findChild, h0] at h
    · simp [findChild, h0] at h
      simp [replaceFirst, h0, ih h]

theorem findChild_replaceFirst {T : Type} {cs : List (GNode T)} {s : String}
    {c nn : GNode T} (h : findChild cs s = some c) (hn : nn.name = s) :
    findChild (replaceFirst cs s nn) s = some nn := by
  induction cs with
  | nil => simp [findChild] at h
  | cons c0 cs ih =>
    by_cases h0 : c0.name = s
    · simp [replaceFirst, h0, findChild, hn]
    · simp [findChild, h0] at h
      simp [replaceFirst, h0, findChild, ih h]

theorem insertNode_name {T : Type} (zero d : T) :
    ∀ (path : List String) (n : GNode T), (insertNode zero path d n).name = n.name := by
  intro path n
  match path, n with
  | [], _ => rfl
  | s :: rest, .mk nm dat cs =>
    cases rest with
    | nil => rfl
    | cons r rs =>
      simp only [insertNode]
      cases findChild cs s <;> rfl

theorem insertNode_step_some {T : Type} (zero d : T) (s r : String) (rs : List String)
    (nm : String) (dat : T) (cs : List (GNode T)) {c : GNode T}
    (h : findChild cs s = some c) :
    insertNode zero (s :: r :: rs) d (.mk nm dat cs)
      = .mk nm dat (replaceFirst cs s (insertNode zero (r :: rs) d c)) := by
  conv_lhs => rw [insertNode]
  rw [h]

theorem insertNode_step_none {T : Type} (zero d : T) (s r : String) (rs : List String)
    (nm : String) (dat : T) (cs : List (GNode T))
    (h : findChild cs s = none) :
    insertNode zero (s :: r :: rs) d (.mk nm dat cs)
      = .mk nm dat (cs ++ [insertNode zero (r :: rs) d (.mk s zero [])]) := by
  conv_lhs => rw [insertNode]
  rw [h]

/-- C6 (amended): the `Insert`/`Find` round-trip holds provided `Find` fails on
the path before the insertion (in particular the final segment's parent has no
pre-existing child with that name); `Find` then returns exactly the freshly
appended node, whose payload is the inserted payload.  Without that proviso
the round-trip fails, because `Insert` appends the new node at the end of the
children list while `Find` returns the first name match
(`insert_find_roundtrip_cex`). -/
theorem insert_find_roundtrip_of_not_found {T : Type} (zero d : T) :
    ∀ (path : List String) (t : GNode T), path ≠ [] → findNode t path = none →
      ∃ n, findNode (insertNode zero path d t) path = some n ∧ n.data = d := by
  intro path
  induction path with
  | nil => intro t h _; exact absurd rfl h
  | cons s rest ih =>
    intro t _ hfind
    obtain ⟨nm, dat, cs⟩ := t
    cases rest with
    | nil =>
      have hcs : findChild cs s = none := by
        simp only [findNode, GNode.children_mk] at hfind
        cases h : findChild cs s with
        | none => rfl
        | some c => simp [h, findNode] at hfind
      refine ⟨.mk s d [], ?_, rfl⟩
      simp [insertNode, findNode, findChild_append_of_none hcs, findChild]
    | cons r rs =>
      simp only [findNode, GNode.children_mk] at hfind
      cases h : findChild cs s with
      | some c =>
        rw [h] at hfind
        have hrec : findNode c (r :: rs) = none := hfind
        obtain ⟨n, hn, hd⟩ := ih c (by simp) hrec
        refine ⟨n, ?_, hd⟩
        have hname : (insertNode zero (r :: rs) d c).name = s := by
          rw [insertNode_name]; exact findChild_name h
        rw [insertNode_step_some zero d s r rs nm dat cs h]
        simp only [findNode, GNode.children_mk]
        rw [findChild_replaceFirst h hname]
        exact hn
      | none =>
        have hfresh : findNode (GNode.mk s zero []) (r :: rs) = none := by
          simp [findNode, findChild]
        obtain ⟨n, hn, hd⟩ := ih (.mk s zero []) (by simp) hfresh
        refine ⟨n, ?_, hd⟩
        have hname : (insertNode zero (r :: rs) d (GNode.mk s zero [])).name = s := by
          rw [insertNode_name]; rfl
        rw [insertNode_step_none zero d s r rs nm dat cs h]
        simp only [findNode, GNode.children_mk]
        rw [findChild_append_of_none h, findChild, if_pos hname]
        exact hn

/-- Witness for `insert_find_roundtrip_of_not_found` at a concrete input:
inserting `a/b` with payload `5` into a fresh tree and finding it back. -/
theorem insert_find_roundtrip_of_not_found_witness :
    ∃ n, findNode (insertNode (0 : Nat) ["a", "b"] 5 (.mk "root" 0 [])) ["a", "b"]
          = some n ∧ n.data = 5 :=
  insert_find_roundtrip_of_not_found 0 5 ["a", "b"] (.mk "root" 0 [])
    (by simp) (by simp [findNode, findChild])

/-- C6 (counterexample to the claim as stated): after inserting path `a` twice
with payloads `1` then `2`, `Find` returns the first inserted node, so the
node found after the second `Insert` carries payload `1`, not the inserted
payload `2`. -/
theorem insert_find_roundtrip_cex :
    (findNode (insertNode (0 : Nat) ["a"] 2 (insertNode 0 ["a"] 1 (.mk "root" 0 []))) ["a"]).map
        GNode.data = some 1 ∧ (1 : Nat) ≠ 2 := by
  constructor
  · rfl
  · decide

/-- C5: `Insert` find-or-creates intermediate segments but always appends the
final segment.  Starting from any tree whose root has no child named `a`,
inserting `a/b/x` then `a/b/y` produces exactly one child named `a` (counted),
holding exactly one node named `b`, which holds the two final nodes `x` and
`y`; and inserting the same one-segment path `c` twice into any tree appends a
second node with that name rather than overwriting the first. -/
theorem insert_dedup_and_append {T : Type} (zero dx dy d1 d2 : T) (a b x y c : String)
    (t u : GNode T) (ha : findChild t.children a = none) :
    insertNode zero [a, b, y] dy (insertNode zero [a, b, x] dx t)
        = .mk t.name t.data (t.children ++
            [.mk a zero [.mk b zero [.mk x dx [], .mk y dy []]]]) ∧
    ((insertNode zero [a, b, y] dy (insertNode zero [a, b, x] dx t)).children.countP
        (fun n => n.name == a)) = 1 ∧
    insertNode zero [c] d2 (insertNode zero [c] d1 u)
        = .mk u.name u.data (u.children ++ [.mk c d1 [], .mk c d2 []]) := by
  obtain ⟨nm, dat, cs⟩ := t
  simp only [GNode.children_mk] at ha
  have hin : insertNode zero [a, b, x] dx (GNode.mk nm dat cs)
      = .mk nm dat (cs ++ [.mk a zero [.mk b zero [.mk x dx []]]]) := by
    rw [insertNode_step_none zero dx a b [x] nm dat cs ha]
    rw [insertNode_step_none zero dx b x [] a zero [] rfl]
    rfl
  have hfA : findChild (cs ++ [GNode.mk a zero [.mk b zero [.mk x dx []]]]) a
      = some (GNode.mk a zero [.mk b zero [.mk x dx []]]) := by
    rw [findChild_append_of_none ha]
    simp [findChild]
  have hfB : findChild [GNode.mk b zero [.mk x dx []]] b
      = some (GNode.mk b zero [.mk x dx []]) := by
    simp [findChild]
  have heq : insertNode zero [a, b, y] dy (insertNode zero [a, b, x] dx (GNode.mk nm dat cs))
      = .mk nm dat (cs ++ [.mk a zero [.mk b zero [.mk x dx [], .mk y dy []]]]) := by
    rw [hin, insertNode_step_some zero dy a b [y] nm dat _ hfA,
      replaceFirst_append_of_none ha,
      insertNode_step_some zero dy b y [] a zero _ hfB]
    simp [replaceFirst, insertNode]
  refine ⟨heq, ?_, ?_⟩
  · rw [heq]
    simp only [GNode.children_mk, List.countP_append]
    have h0 : cs.countP (fun n => n.name == a) = 0 := by
      rw [List.countP_eq_zero]
      intro n hn
      simpa using (findChild_eq_none.mp ha) n hn
    simp [h0, List.countP_cons]
  · obtain ⟨un, ud, ucs⟩ := u
    simp [insertNode]

/-- Witness for `insert_dedup_and_append` at concrete inputs (fresh trees,
segment names `a`, `b`, `x`, `y`, `c`, `Nat` payloads). -/
theorem insert_dedup_and_append_witness :
    insertNode (0 : Nat) ["a", "b", "y"] 4 (insertNode 0 ["a", "b", "x"] 3 (.mk "r" 0 []))
        = .mk "r" 0 [.mk "a" 0 [.mk "b" 0 [.mk "x" 3 [], .mk "y" 4 []]]] ∧
    ((insertNode (0 : Nat) ["a", "b", "y"] 4
        (insertNode 0 ["a", "b", "x"] 3 (.mk "r" 0 []))).children.countP
        (fun n => n.name == "a")) = 1 ∧
    insertNode (0 : Nat) ["c"] 2 (insertNode 0 ["c"] 1 (.mk "u" 7 []))
        = .mk "u" 7 [.mk "c" 1 [], .mk "c" 2 []] := by
  have h := insert_dedup_and_append (0 : Nat) 3 4 1 2 "a" "b" "x" "y" "c"
    (.mk "r" 0 []) (.mk "u" 7 []) rfl
  simpa using h

theorem sortRel_name_data {T : Type} {less : GNode T → GNode T → Bool}
    {a b : GNode T} (h : SortRel less a b) : b.name = a.name ∧ b.data = a.data := by
  cases h
  exact ⟨rfl, rfl⟩

theorem fsLessData_false_trans {a b c : FileNode}
    (h1 : fsLessData b a = false) (h2 : fsLessData c b = false) :
    fsLessData c a = false := by
  unfold fsLessData at *
  cases hda : a.isDir <;> cases hdb : b.isDir <;> cases hdc : c.isDir <;>
    simp_all [not_lt]
  · exact le_trans h1 h2
  · exact le_trans h1 h2

theorem fsLessData_false_pairOK {p q : FileNode}
    (h : fsLessData q p = false) : fsPairOK p q := by
  unfold fsLessData at h
  cases hp : p.isDir <;> cases hq : q.isDir <;> simp_all [fsPairOK, not_lt]

/-- `SortRel` rewrites no node: mapped over any function of name and data,
pointwise related children lists agree. -/
theorem sortRel_map_eq {T U : Type} {less : GNode T → GNode T → Bool}
    {cs₁ cs' : List (GNode T)} (f : GNode T → U)
    (hf : ∀ a b : GNode T, b.name = a.name → b.data = a.data → f b = f a)
    (hlen : cs₁.length = cs'.length)
    (hrec : ∀ (i : Nat) (h1 : i < cs₁.length) (h2 : i < cs'.length),
      SortRel less (cs₁.get ⟨i, h1⟩) (cs'.get ⟨i, h2⟩)) :
    cs'.map f = cs₁.map f := by
  apply List.ext_get (by simp [hlen])
  intro i h1 h2
  simp only [List.get_eq_getElem, List.getElem_map]
  have h := sortRel_name_data (hrec i (by simpa using h2) (by simpa using h1))
  exact hf _ _ h.1 h.2

/-- C3: every tree reachable from `Sort` with the directories-first comparator
satisfies, in every sibling list at every depth: directories precede
non-directories, and names are non-decreasing within each group. -/
theorem sort_fs_sorted_invariant {t t' : GNode FileNode}
    (h : SortRel fsNodeLess t t') : SortedInv t' := by
  induction h with
  | @mk n d cs cs₁ cs' hperm hsorted hlen hrec ih =>
    constructor
    · have hmap : cs'.map GNode.data = cs₁.map GNode.data := by
        exact sortRel_map_eq GNode.data (fun a b _ hd => hd) hlen hrec
      rw [hmap]
      have hchain : List.Chain' (fun p q : FileNode => fsLessData q p = false)
          (cs₁.map GNode.data) := by
        rw [List.chain'_map]
        exact hsorted
      haveI : IsTrans FileNode (fun p q : FileNode => fsLessData q p = false) :=
        ⟨fun _ _ _ h1 h2 => fsLessData_false_trans h1 h2⟩
      exact (List.chain'_iff_pairwise.mp hchain).imp
        (fun hab => fsLessData_false_pairOK hab)
    · intro c hc
      obtain ⟨⟨i, hi⟩, rfl⟩ := List.mem_iff_get.mp hc
      exact ih i (hlen ▸ hi) hi

theorem treeSizeList_eq_sum {T : Type} (cs : List (GNode T)) :
    treeSizeList cs = (cs.map treeSize).sum := by
  induction cs with
  | nil => rfl
  | cons c cs ih => simp [treeSizeList, ih]

theorem nodeKeysList_eq_flatten {T : Type} (cs : List (GNode T)) :
    nodeKeysList cs = (cs.map nodeKeys).flatten := by
  induction cs with
  | nil => rfl
  | cons c cs ih => simp [nodeKeysList, ih]

theorem flatten_perm_of_perm {α : Type} {l₁ l₂ : List (List α)}
    (h : l₁.Perm l₂) : l₁.flatten.Perm l₂.flatten := by
  induction h with
  | nil => exact List.Perm.refl _
  | cons x _ ih => simpa using ih.append_left x
  | swap x y l =>
    simp only [List.flatten_cons]
    rw [← List.append_assoc, ← List.append_assoc]
    exact List.perm_append_comm.append_right _
  | trans _ _ ih1 ih2 => exact ih1.trans ih2

/-- C10: `Sort` is a pure reordering.  For every comparator, a tree related to
its sorted version keeps its root name and payload, its total node count
(`Size`), the multiset of `(Name, Data)` pairs of all nodes, and each node's
children list is (up to recursive sorting of the children themselves) a
permutation of the original children list — here stated for the root, and
propagated to all depths by `SortRel` itself. -/
theorem sort_pure_reordering {T : Type} (less : GNode T → GNode T → Bool)
    {t t' : GNode T} (h : SortRel less t t') :
    t'.name = t.name ∧ t'.data = t.data ∧ treeSize t' = treeSize t ∧
    (nodeKeys t').Perm (nodeKeys t) ∧
    (t'.children.map (fun c => (c.name, c.data))).Perm
      (t.children.map (fun c => (c.name, c.data))) := by
  induction h with
  | @mk n d cs cs₁ cs' hperm hsorted hlen hrec ih =>
    refine ⟨rfl, rfl, ?_, ?_, ?_⟩
    · show 1 + treeSizeList cs' = 1 + treeSizeList cs
      have hmap : cs'.map treeSize = cs₁.map treeSize := by
        apply List.ext_get (by simp [hlen])
        intro i h1 h2
        simp only [List.get_eq_getElem, List.getElem_map]
        exact (ih i (by simpa using h2) (by simpa using h1)).2.2.1
      rw [treeSizeList_eq_sum, treeSizeList_eq_sum, hmap,
        ← (hperm.map treeSize).sum_eq]
    · show ((n, d) :: nodeKeysList cs').Perm ((n, d) :: nodeKeysList cs)
      apply List.Perm.cons
      have h1 : (nodeKeysList cs').Perm (nodeKeysList cs₁) := by
        rw [nodeKeysList_eq_flatten, nodeKeysList_eq_flatten]
        apply List.Perm.flatten_congr
        apply List.forall₂_iff_get.mpr
        refine ⟨by simp [hlen], fun i h1 h2 => ?_⟩
        simp only [List.get_eq_getElem, List.getElem_map]
        exact (ih i (by simpa using h2) (by simpa using h1)).2.2.2.1
      have h2 : (nodeKeysList cs₁).Perm (nodeKeysList cs) := by
        rw [nodeKeysList_eq_flatten, nodeKeysList_eq_flatten]
        exact (flatten_perm_of_perm (hperm.map nodeKeys)).symm
      exact h1.trans h2
    · show (cs'.map (fun c => (c.name, c.data))).Perm
        (cs.map (fun c => (c.name, c.data)))
      have hmap : cs'.map (fun c => (c.name, c.data))
          = cs₁.map (fun c => (c.name, c.data)) :=
        sortRel_map_eq _ (fun a b h1 h2 => by simp [h1, h2]) hlen hrec
      rw [hmap]
      exact (hperm.map _).symm

theorem sortRel_leaf {T : Type} (less : GNode T → GNode T → Bool) (n : String) (d : T) :
    SortRel less (.mk n d []) (.mk n d []) := by
  refine SortRel.mk (List.Perm.refl []) ?_ rfl ?_
  · trivial
  · intro i h1 h2
    simp at h1

theorem sortRel_example : SortRel fsNodeLess exUnsorted exSorted := by
  show SortRel fsNodeLess (.mk "r" fnRoot [exFileB, exDirA]) (.mk "r" fnRoot [exDirA, exFileB])
  refine SortRel.mk (List.Perm.swap exDirA exFileB []) ?_ rfl ?_
  · show List.Chain _ exDirA [exFileB]
    exact List.Chain.cons (by decide) List.Chain.nil
  · intro i h1 h2
    simp only [List.length_cons, List.length_nil] at h1
    interval_cases i
    · exact sortRel_leaf _ _ _
    · exact sortRel_leaf _ _ _

theorem sortRel_tie : SortRel fsNodeLess tieBefore tieAfter := by
  show SortRel fsNodeLess (.mk "r" fnRoot [exDup1, exDup2]) (.mk "r" fnRoot [exDup2, exDup1])
  refine SortRel.mk (List.Perm.swap exDup2 exDup1 []) ?_ rfl ?_
  · show List.Chain _ exDup2 [exDup1]
    refine List.Chain.cons ?_ List.Chain.nil
    show fsNodeLess exDup1 exDup2 = false
    simp [fsNodeLess, fsLessData, exDup1, exDup2, fnDup1, fnDup2]
  · intro i h1 h2
    simp only [List.length_cons, List.length_nil] at h1
    interval_cases i
    · exact sortRel_leaf _ _ _
    · exact sortRel_leaf _ _ _

/-- Witness for `sort_fs_sorted_invariant` at a concrete input: sorting
`root → [b.txt (file), dA (dir)]` into `[dA, b.txt]`. -/
theorem sort_fs_sorted_invariant_witness : SortedInv exSorted :=
  sort_fs_sorted_invariant sortRel_example

/-- Witness for `sort_pure_reordering` at a concrete input. -/
theorem sort_pure_reordering_witness :
    treeSize exSorted = treeSize exUnsorted ∧
    (nodeKeys exSorted).Perm (nodeKeys exUnsorted) :=
  ⟨(sort_pure_reordering fsNodeLess sortRel_example).2.2.1,
    (sort_pure_reordering fsNodeLess sortRel_example).2.2.2.1⟩

/-- C2 (counterexample): `sortNode` uses Go's `sort.Slice`, which does not
guarantee stability, so reversing two tied siblings (identical `Name`,
identical `IsDir`, distinct nodes) is a possible outcome of `Sort`: the tied
siblings do not necessarily keep their relative insertion order. -/
theorem sort_stability_cex :
    SortRel fsNodeLess tieBefore tieAfter ∧
    tieBefore.children = [exDup1, exDup2] ∧
    tieAfter.children = [exDup2, exDup1] ∧
    exDup1.data.name = exDup2.data.name ∧
    exDup1.data.isDir = exDup2.data.isDir ∧
    exDup1 ≠ exDup2 := by
  refine ⟨sortRel_tie, rfl, rfl, rfl, rfl, fun h => ?_⟩
  have hpath := congrArg (fun x => x.data.path) h
  simp [exDup1, exDup2, fnDup1, fnDup2] at hpath

/-- C2 (amended): `Sort` with the filesystem comparator preserves each sibling
list as a multiset of payloads — tied siblings all survive with their
multiplicity — but their relative insertion order is not guaranteed, because
`sort.Slice` is not a stable sort (see `sort_stability_cex`). -/
theorem sort_ties_preserved_as_multiset {t t' : GNode FileNode}
    (h : SortRel fsNodeLess t t') :
    (t'.children.map GNode.data).Perm (t.children.map GNode.data) := by
  cases h with
  | mk hperm hsorted hlen hrec =>
    have hmap := sortRel_map_eq GNode.data (fun a b _ hd => hd) hlen hrec
    simp only [GNode.children_mk]
    rw [hmap]
    exact (hperm.map _).symm

/-- Witness for `sort_ties_preserved_as_multiset` at a concrete input. -/
theorem sort_ties_preserved_as_multiset_witness :
    (tieAfter.children.map GNode.data).Perm (tieBefore.children.map GNode.data) :=
  sort_ties_preserved_as_multiset sortRel_tie

/-- C1: on the spec's 3-level example (with plain, colorless styling) the
legacy `printTree` emits exactly the block required by the claim — in
particular `file2.txt`'s line carries the vertical-bar continuation and the
"last" glyph, and `file3.txt`'s line the top-level "last" glyph with empty
prefix — while the generic `TreeRendererImpl.renderNode` with
`FileSystemStyler` emits `"    └── file2.txt"` instead: `GetPrefix` receives
the child's is-last flag instead of the parent's and never receives the
accumulated prefix, so the claimed prefix law fails on the tree renderer. -/
theorem render_prefix_divergence :
    printTreeGo (fun f => f.name) exRenderTree "" true true
      = ["├── dirA", "│   ├── file1.txt", "│   └── file2.txt", "└── file3.txt"] ∧
    renderNodeGo (fun f => f.name) exRenderTree "" true true
      = ["├── dirA", "│   ├── file1.txt", "    └── file2.txt", "└── file3.txt"] ∧
    ("    └── file2.txt" : String) ≠ "│   └── file2.txt" := by
  refine ⟨?_, ?_, by decide⟩
  · simp [exRenderTree, printTreeGo, printTreeKids, rdDirA, rdFile1, rdFile2, rdFile3]
  · simp [exRenderTree, renderNodeGo, renderKidsGo, getTreeCharFS, getPrefixFS,
      rdDirA, rdFile1, rdFile2, rdFile3]

/-- C4: `ShowHierarchy` suppresses the render exactly when the root has one
single child that is not a directory — then no line is emitted and
`hasHierarchy` is false — and in every other case it performs the render
(emitting the renderer's lines) and signals `hasHierarchy = true`. -/
theorem show_hierarchy_suppression (style : FileNode → String) (root : GNode FileNode) :
    ((showHierarchyModel style root).2 = false ↔
      ∃ c, root.children = [c] ∧ c.data.isDir = false) ∧
    ((showHierarchyModel style root).2 = false → (showHierarchyModel style root).1 = []) ∧
    ((showHierarchyModel style root).2 = true →
      (showHierarchyModel style root).1 = renderNodeGo style root "" true true) := by
  obtain ⟨n, d, cs⟩ := root
  match cs with
  | [] => simp [showHierarchyModel, renderTreeImpl]
  | [c] =>
    by_cases hc : c.data.isDir
    · simp [showHierarchyModel, renderTreeImpl, hc]
    · simp only [Bool.not_eq_true] at hc
      simp [showHierarchyModel, renderTreeImpl, hc]
  | c :: c2 :: rest => simp [showHierarchyModel, renderTreeImpl]

/-- Witness for `show_hierarchy_suppression`: a root with a single regular
file child is suppressed. -/
theorem show_hierarchy_suppression_witness :
    (showHierarchyModel (fun f => f.name) exSingleFile).2 = false :=
  (show_hierarchy_suppression (fun f => f.name) exSingleFile).1.mpr ⟨exFileB, rfl, rfl⟩

/-- C7 (counterexample): for the document `(a ↦ 1, b ↦ [x, y])`, the child
`b` built for the sequence value carries `NodeType = "object"`, not the
claimed kind `array` (the repository's own test `TestYAMLNodeDataTypes`
asserts the `"object"` tag for an array container), and its item children
carry `NodeType = "array"`, not `"scalar"`. -/
theorem yaml_array_kind_cex :
    ((findChild (parseYAMLToTree docC7).children "b").map (fun c => c.data.nodeType))
        = some "object" ∧
    ((findChild (parseYAMLToTree docC7).children "b").map
        (fun c => c.children.map (fun i => i.data.nodeType))) = some ["array", "array"] ∧
    ("object" : String) ≠ "array" ∧ ("array" : String) ≠ "scalar" := by
  refine ⟨?_, ?_, by decide, by decide⟩
  · simp [parseYAMLToTree, docC7, buildYAMLTree, buildMapChildren, buildArrChildren,
      itemLabel, findChild]
  · simp [parseYAMLToTree, docC7, buildYAMLTree, buildMapChildren, buildArrChildren,
      itemLabel, findChild]

/-- C7 (amended): decomposing `(a ↦ 1, b ↦ [x, y])` yields a root with
exactly two children: `a`, a scalar leaf carrying value 1 (`IsDir: false`,
kind `scalar`), and `b`, a container (`IsDir: true`) whose node-kind tag
remains `object` — the `array` kind is carried by its two leaf item children
`x` and `y` (`IsDir: false`, kind `array`), not by the container itself. -/
theorem yaml_decomposition_amended :
    parseYAMLToTree docC7
      = .mk "root" ⟨"root", docC7, true, "object"⟩
          [.mk "a" ⟨"a", .int 1, false, "scalar"⟩ [],
           .mk "b" ⟨"b", .arr [.str "x", .str "y"], true, "object"⟩
             [.mk "x" ⟨"x", .str "x", false, "array"⟩ [],
              .mk "y" ⟨"y", .str "y", false, "array"⟩ []]] := by
  simp [parseYAMLToTree, docC7, buildYAMLTree, buildMapChildren, buildArrChildren,
    itemLabel]

/-- C8: the document tree builder is not deterministic across runs.  The two
entry orders `docC8a` and `docC8b` are the same Go map (a permutation of each
other), yet `buildYAMLTree` appends the mapping's children in the iteration
order it is given — which Go randomizes per run — so the two runs produce
different trees (children `[a, b]` versus `[b, a]`). -/
theorem yaml_builder_order_dependent :
    docC8a.Perm docC8b ∧
    ((parseYAMLToTree (.map docC8a)).children.map GNode.name = ["a", "b"]) ∧
    ((parseYAMLToTree (.map docC8b)).children.map GNode.name = ["b", "a"]) ∧
    parseYAMLToTree (.map docC8a) ≠ parseYAMLToTree (.map docC8b) := by
  have ha : (parseYAMLToTree (.map docC8a)).children.map GNode.name = ["a", "b"] := by
    simp [parseYAMLToTree, docC8a, buildYAMLTree, buildMapChildren]
  have hb : (parseYAMLToTree (.map docC8b)).children.map GNode.name = ["b", "a"] := by
    simp [parseYAMLToTree, docC8b, buildYAMLTree, buildMapChildren]
  refine ⟨?_, ha, hb, fun h => ?_⟩
  · show List.Perm [("a", YVal.int 1), ("b", YVal.int 2)] [("b", YVal.int 2), ("a", YVal.int 1)]
    exact List.Perm.swap ("b", YVal.int 2) ("a", YVal.int 1) []
  · have heq := congrArg (fun t => t.children.map GNode.name) h
    simp only [] at heq
    rw [ha, hb] at heq
    simp at heq
